import Mathlib

/-!
Verification development for the Wattspay group-payment engine.

The definitions below are a shallow embedding of

  * `src/wallet/groupPaymentService.ts` — the off-chain debt tracker and
    optimal-settlement planner (`addGroupExpense`, `getGroupDebtBalances`,
    `calculateOptimalSettlement`, `executeOptimalSettlement`);
  * `contracts/group_treasury.move` — the on-chain multisig treasury
    (the equal-split computation inside `propose_group_expense`);
  * `move_contracts/sources/group_treasury.move` — the simpler on-chain
    treasury (`add_expense`, `recalculate_debt_balances`).

JavaScript numbers are modelled as rationals (`ℚ`); JavaScript `Map`s are
modelled as insertion-ordered association lists whose `set` updates the
first occurrence of a key in place and appends fresh keys at the end,
exactly as a JS `Map` iterates.  Move `u64` values are modelled as `Nat`.
-/

namespace Wattspay

/-! ### Insertion-ordered maps (JS `Map` semantics) -/

/-- Lookup of the first binding of key `k`, as `Map.get`. -/
def mapGet {α : Type} : List (String × α) → String → Option α
  | [], _ => none
  | (k', v') :: rest, k => if k' = k then some v' else mapGet rest k

/-- Update of the first binding of `k` in place, appending at the end when
`k` is absent, as `Map.set`. -/
def mapSet {α : Type} : List (String × α) → String → α → List (String × α)
  | [], k, v => [(k, v)]
  | (k', v') :: rest, k, v =>
      if k' = k then (k', v) :: rest else (k', v') :: mapSet rest k v

/-- Key membership, as `Map.has`. -/
def mapHas {α : Type} (m : List (String × α)) (k : String) : Bool :=
  (mapGet m k).isSome

/-- Sum of all values stored in the map. -/
def sumValues (m : List (String × ℚ)) : ℚ :=
  (m.map Prod.snd).sum

/-- Value stored at `k`, with the JS `|| 0` default for a missing key. -/
def valueAt (m : List (String × ℚ)) (k : String) : ℚ :=
  (mapGet m k).getD 0

/-! ### Off-chain data model (`groupPaymentService.ts`) -/

/-- Row of the `groupExpense` table used by the debt tracker: payer phone,
amount, split list and the `settled` flag. -/
structure GroupExpense where
  paidByPhone : String
  amount : ℚ
  splitAmongPhones : List String
  settled : Bool
  deriving DecidableEq, Repr

/-- Entry returned by `getGroupDebtBalances`: a debtor phone, the total it
owes (`netOwed`) and the per-creditor breakdown (`debtDetails`). -/
structure GroupDebtBalance where
  phoneNumber : String
  netOwed : ℚ
  debtDetails : List (String × ℚ)
  deriving DecidableEq, Repr

/-- Settlement transaction produced by `calculateOptimalSettlement`. -/
structure NetSettlementTransaction where
  fromPhone : String
  toPhone : String
  amount : ℚ
  deriving DecidableEq, Repr

/-- One iteration of the debt-map loop body in `getGroupDebtBalances`: a
split member `phone` other than the payer accrues `individualAmount`
against the payer. -/
def debtStep (paidBy : String) (individualAmount : ℚ)
    (dm : List (String × List (String × ℚ))) (phone : String) :
    List (String × List (String × ℚ)) :=
  if phone = paidBy then dm
  else
    let inner := (mapGet dm phone).getD []
    let currentDebt := (mapGet inner paidBy).getD 0
    mapSet dm phone (mapSet inner paidBy (currentDebt + individualAmount))

/-- Inner loop of the debt map construction in `getGroupDebtBalances`: for
one expense, every split member other than the payer accrues
`amount / splitAmong.length` against the payer. -/
def recordExpenseDebts (dm : List (String × List (String × ℚ)))
    (e : GroupExpense) : List (String × List (String × ℚ)) :=
  e.splitAmongPhones.foldl
    (debtStep e.paidByPhone (e.amount / (e.splitAmongPhones.length : ℚ))) dm

/-- Nested debt map of `getGroupDebtBalances`: debtor phone ↦ creditor
phone ↦ owed amount, accumulated over the unsettled expenses. -/
def buildDebtMap (expenses : List GroupExpense) : List (String × List (String × ℚ)) :=
  (expenses.filter (fun e => !e.settled)).foldl recordExpenseDebts []

/-- Embedding of `getGroupDebtBalances`: the debt map flattened to a list
of balances, `netOwed` being the sum of the debtor's row. -/
def getGroupDebtBalances (expenses : List GroupExpense) : List GroupDebtBalance :=
  (buildDebtMap expenses).map
    (fun pr => ⟨pr.1, sumValues pr.2, pr.2⟩)

/-- First-occurrence deduplication, as iterating a JS `Set` built by
insertion. -/
def dedupFirst (l : List String) : List String :=
  l.foldl (fun acc s => if s ∈ acc then acc else acc ++ [s]) []

/-- Balances map built inside `calculateOptimalSettlement`: start from each
debtor's `netOwed`, add a zero entry for every other phone mentioned, then
subtract from each creditor everything owed to it. -/
def buildBalances (dbs : List GroupDebtBalance) : List (String × ℚ) :=
  let b1 := dbs.foldl (fun m b => mapSet m b.phoneNumber b.netOwed) []
  let allPhones := dedupFirst (dbs.flatMap (fun b => b.phoneNumber :: b.debtDetails.map Prod.fst))
  let b2 := allPhones.foldl (fun m p => if mapHas m p then m else mapSet m p 0) b1
  dbs.foldl
    (fun m b =>
      b.debtDetails.foldl
        (fun m' d => mapSet m' d.1 ((mapGet m' d.1).getD 0 - d.2)) m)
    b2

/-- Stable insertion of `a` before the first element it should precede;
`le a b = true` means `a` may come before `b`. -/
def orderedInsert {α : Type} (le : α → α → Bool) (a : α) : List α → List α
  | [] => [a]
  | b :: l => if le a b then a :: b :: l else b :: orderedInsert le a l

/-- Stable sort with comparator `le`, modelling JS `Array.prototype.sort`
(which is stable; a stable sort's output is unique for a total preorder). -/
def sortBy {α : Type} (le : α → α → Bool) : List α → List α
  | [] => []
  | a :: l => orderedInsert le a (sortBy le l)

/-- JS `Math.min` on two numbers. -/
def mathMin (a b : ℚ) : ℚ := if a ≤ b then a else b

/-- JS `Math.abs`. -/
def mathAbs (a : ℚ) : ℚ := if a < 0 then -a else a

/-- Greedy settlement loop of `calculateOptimalSettlement`.  The head of
`debtors` is matched against the head of `creditors`; the settled amount is
`min(debtAmount, |creditAmount|)`, a transaction is emitted only when it
exceeds the `0.01` dust guard, and a pointer advances past a participant
whose residual is within `0.01` of zero.  `fuel` bounds the number of loop
iterations; the caller passes `debtors.length + creditors.length`, which is
ample because on the planner's inputs (positive debtors, negative
creditors) every iteration retires at least one participant. -/
def settleLoop : Nat → List (String × ℚ) → List (String × ℚ) →
    List NetSettlementTransaction
  | 0, _, _ => []
  | _ + 1, [], _ => []
  | _ + 1, _, [] => []
  | fuel + 1, (debtorPhone, debtAmount) :: ds, (creditorPhone, creditAmount) :: cs =>
      let settleAmount := mathMin debtAmount (mathAbs creditAmount)
      let emitted : List NetSettlementTransaction :=
        if settleAmount > 1/100 then [⟨debtorPhone, creditorPhone, settleAmount⟩] else []
      let debtRest := debtAmount - settleAmount
      let creditRest := creditAmount + settleAmount
      let rest :=
        if debtRest ≤ 1/100 then
          if mathAbs creditRest ≤ 1/100 then settleLoop fuel ds cs
          else settleLoop fuel ds ((creditorPhone, creditRest) :: cs)
        else
          if mathAbs creditRest ≤ 1/100 then settleLoop fuel ((debtorPhone, debtRest) :: ds) cs
          else settleLoop fuel ((debtorPhone, debtRest) :: ds) ((creditorPhone, creditRest) :: cs)
      emitted ++ rest

/-- Embedding of `calculateOptimalSettlement`: build the balances map from
the unsettled expenses, split it into debtors (positive, sorted descending)
and creditors (negative, sorted ascending), and run the greedy loop. -/
def calculateOptimalSettlement (expenses : List GroupExpense) :
    List NetSettlementTransaction :=
  let debtBalances := getGroupDebtBalances expenses
  let balances := buildBalances debtBalances
  let debtors := sortBy (fun a b => a.2 ≥ b.2) (balances.filter (fun p => p.2 > 0))
  let creditors := sortBy (fun a b => a.2 ≤ b.2) (balances.filter (fun p => p.2 < 0))
  settleLoop (debtors.length + creditors.length) debtors creditors

/-- Per-settlement execution loop of `executeOptimalSettlement`: each
transaction is attempted inside its own `try`/`catch`, a failed or skipped
transfer is dropped from `results` and the loop continues with the next
settlement.  The external payment rail is abstracted by the oracle
`succeeds`. -/
def runSettlements (succeeds : NetSettlementTransaction → Bool) :
    List NetSettlementTransaction → List NetSettlementTransaction
  | [] => []
  | t :: rest =>
      (if succeeds t then [t] else []) ++ runSettlements succeeds rest

/-- Outcome of `executeOptimalSettlement`: the per-transaction results and
the expense table after the run. -/
structure SettlementRunOutcome where
  results : List NetSettlementTransaction
  expensesAfter : List GroupExpense
  deriving DecidableEq, Repr

/-- Embedding of `executeOptimalSettlement`: compute the plan, attempt every
transaction independently, and mark the unsettled expenses settled only when
`results.length === settlements.length` (every transfer succeeded). -/
def executeOptimalSettlement (expenses : List GroupExpense)
    (succeeds : NetSettlementTransaction → Bool) : SettlementRunOutcome :=
  let settlements := calculateOptimalSettlement expenses
  let results := runSettlements succeeds settlements
  let expensesAfter :=
    if results.length = settlements.length then
      expenses.map (fun e => if e.settled then e else { e with settled := true })
    else expenses
  ⟨results, expensesAfter⟩

/-- Embedding of `addGroupExpense`: the service performs no validation and
unconditionally appends a new unsettled expense row to the table. -/
def addGroupExpense (expenses : List GroupExpense) (paidByPhone : String)
    (amount : ℚ) (splitAmongPhones : List String) : List GroupExpense :=
  expenses ++ [⟨paidByPhone, amount, splitAmongPhones, false⟩]

/-- Net balance of one phone in the planner's balances map (positive means
the phone owes money, negative that it is owed money). -/
def finalBalance (expenses : List GroupExpense) (phone : String) : ℚ :=
  valueAt (buildBalances (getGroupDebtBalances expenses)) phone

/-! ### On-chain model, `contracts/group_treasury.move` -/

/-- Equal-split amounts computed by `propose_group_expense` when no custom
split is supplied: `per_person = amount / n`, `remainder = amount % n`, and
the first `remainder` participants in split order pay one extra minor
unit. -/
def equalSplitAmounts (amount : Nat) (splitCount : Nat) : List Nat :=
  let perPerson := amount / splitCount
  let remainder := amount % splitCount
  (List.range splitCount).map
    (fun j => if j < remainder then perPerson + 1 else perPerson)

/-! ### On-chain model, `move_contracts/sources/group_treasury.move` -/

/-- Directed debt edge stored in `debt_balances`. -/
structure DebtBalance where
  fromUser : String
  toUser : String
  amount : Nat
  deriving DecidableEq, Repr

/-- Expense record stored by `add_expense`; `per_person_amount` is the
single integer `amount / participants_count`, shared by every
participant. -/
structure MoveExpense where
  id : Nat
  paidBy : String
  amount : Nat
  participants : List String
  perPersonAmount : Nat
  isSettled : Bool
  deriving DecidableEq, Repr

/-- Mutable state of one `GroupTreasury` resource (the registry lookup is
kept outside the model: operations act on a group already fetched). -/
structure GroupTreasury where
  members : List String
  memberList : List String
  expenses : List MoveExpense
  nextExpenseId : Nat
  debtBalances : List DebtBalance
  totalExpenses : Nat
  settlementStatus : Nat
  deriving DecidableEq, Repr

/-- Abort codes raised by `add_expense`. -/
inductive MoveAbort where
  | invalidAmount
  | invalidParticipants
  | notGroupMember
  deriving DecidableEq, Repr

/-- Embedding of `recalculate_debt_balances`: the stored balances are
cleared and, whenever the group has at least two members, replaced by the
single placeholder edge `member_list[0] → member_list[1]` of `100000`
Octas; the recorded expenses are never consulted. -/
def recalculate_debt_balances (g : GroupTreasury) : GroupTreasury :=
  match g.memberList with
  | debtor :: creditor :: _ =>
      { g with debtBalances := [⟨debtor, creditor, 100000⟩] }
  | _ => { g with debtBalances := [] }

/-- Embedding of `add_expense`: aborts with `E_INVALID_AMOUNT` when the
amount is zero (`u64` cannot be negative), `E_INVALID_PARTICIPANTS` when
the participant list is empty or contains a non-member, and
`E_NOT_GROUP_MEMBER` when the payer is not a member; otherwise the expense
is appended with `per_person_amount = amount / participants_count` and the
debt balances are recalculated.  A Move abort rolls the whole transaction
back, which the `Except` error case models by returning no new state. -/
def add_expense (g : GroupTreasury) (payer : String) (amount : Nat)
    (participants : List String) : Except MoveAbort GroupTreasury :=
  if amount = 0 then .error .invalidAmount
  else if participants.isEmpty then .error .invalidParticipants
  else if payer ∉ g.members then .error .notGroupMember
  else if ¬ (∀ p ∈ participants, p ∈ g.members) then .error .invalidParticipants
  else
    let expense : MoveExpense :=
      { id := g.nextExpenseId
        paidBy := payer
        amount := amount
        participants := participants
        perPersonAmount := amount / participants.length
        isSettled := false }
    .ok (recalculate_debt_balances
      { g with
          expenses := g.expenses ++ [expense]
          nextExpenseId := g.nextExpenseId + 1
          totalExpenses := g.totalExpenses + amount })

/-- Modelled from the spec: the settlement engine's notion of an expense
being "fully resolved by the confirmed transfers" (the TypeScript source
tracks no such per-expense coverage — `settlesDebts` is always empty — so
the predicate follows the spec's words): every split member other than the
payer has transferred at least their share to the payer within the
confirmed transactions. -/
def specFullyResolved (confirmed : List NetSettlementTransaction)
    (e : GroupExpense) : Prop :=
  ∀ phone ∈ e.splitAmongPhones, phone ≠ e.paidByPhone →
    e.amount / (e.splitAmongPhones.length : ℚ) ≤
      ((confirmed.filter
        (fun t => t.fromPhone = phone ∧ t.toPhone = e.paidByPhone)).map
          NetSettlementTransaction.amount).sum

instance (confirmed : List NetSettlementTransaction) (e : GroupExpense) :
    Decidable (specFullyResolved confirmed e) := by
  unfold specFullyResolved; infer_instance

/-- Embedding of the `get_group_debt_balances` view: it returns the stored
`debt_balances` field verbatim. -/
def get_group_debt_balances (g : GroupTreasury) : List DebtBalance :=
  g.debtBalances

/-! ### Derived quantities used by the statements -/

/-- Net position of a member in the spec's sign convention: positive when
the member is owed money.  The planner's balances map uses the opposite
sign (positive = owes), so the position is its negation. -/
def netPosition (expenses : List GroupExpense) (phone : String) : ℚ :=
  -(finalBalance expenses phone)

/-- Number of members carrying a nonzero balance in the planner's balances
map (its keys are pairwise distinct by construction). -/
def nonzeroMemberCount (expenses : List GroupExpense) : Nat :=
  (buildBalances (getGroupDebtBalances expenses)).countP (fun p => p.2 ≠ 0)

/-- Row total of the nested debt map: everything `p` owes. -/
def rowSum (dm : List (String × List (String × ℚ))) (p : String) : ℚ :=
  sumValues ((mapGet dm p).getD [])

/-- Column total of the nested debt map: everything owed to `p`. -/
def colSum (dm : List (String × List (String × ℚ))) (p : String) : ℚ :=
  (dm.map (fun r => valueAt r.2 p)).sum

/-- Well-formedness of the nested debt map: outer keys are pairwise
distinct and so are the keys of every row (both hold by construction,
because the maps are only ever modified through `mapSet`). -/
def dmWellFormed (dm : List (String × List (String × ℚ))) : Prop :=
  (dm.map Prod.fst).Nodup ∧ ∀ pr ∈ dm, (pr.2.map Prod.fst).Nodup

/-! ### Concrete fixtures for witnesses and counterexamples -/

/-- Expense: A paid 10, split equally between A and B. -/
def expAB : GroupExpense := ⟨"A", 10, ["A", "B"], false⟩

/-- Expense: C paid 8, split equally between C and D. -/
def expCD : GroupExpense := ⟨"C", 8, ["C", "D"], false⟩

/-- Sub-dust expense: A paid 0.01, split equally between A and B, so B owes
A half a cent. -/
def expDust : GroupExpense := ⟨"A", 1/100, ["A", "B"], false⟩

/-- One-expense table. -/
def exSimple : List GroupExpense := [expAB]

/-- Two disjoint expenses: the plan is B→A 5 and D→C 4. -/
def exPair : List GroupExpense := [expAB, expCD]

/-- Table holding only the sub-dust expense. -/
def exDust : List GroupExpense := [expDust]

/-- Payment-rail oracle that lets only B's transfer through. -/
def succOnlyB (t : NetSettlementTransaction) : Bool :=
  t.fromPhone = "B"

/-- Two-member on-chain group fixture. -/
def sampleGroup : GroupTreasury :=
  { members := ["M0", "M1"]
    memberList := ["M0", "M1"]
    expenses := []
    nextExpenseId := 0
    debtBalances := []
    totalExpenses := 0
    settlementStatus := 0 }

/-- State of `sampleGroup` after `add_expense` of 7 Octas paid by M0 split
across both members. -/
def sampleGroupAfter : GroupTreasury :=
  { members := ["M0", "M1"]
    memberList := ["M0", "M1"]
    expenses := [⟨0, "M0", 7, ["M0", "M1"], 3, false⟩]
    nextExpenseId := 1
    debtBalances := [⟨"M0", "M1", 100000⟩]
    totalExpenses := 7
    settlementStatus := 0 }

/-! ## Lemmas about the insertion-ordered maps -/

theorem mapGet_mapSet {α : Type} (m : List (String × α)) (k k' : String) (v : α) :
    mapGet (mapSet m k v) k' = if k = k' then some v else mapGet m k' := by
  induction m with
  | nil =>
      by_cases h : k = k' <;> simp [mapSet, mapGet, h]
  | cons hd tl ih =>
      obtain ⟨k₀, v₀⟩ := hd
      by_cases h0 : k₀ = k
      · subst h0
        by_cases h1 : k₀ = k' <;> simp [mapSet, mapGet, h1]
      · by_cases h1 : k₀ = k'
        · subst h1
          have : ¬ k = k₀ := fun h => h0 h.symm
          simp [mapSet, mapGet, h0, this]
        · simp [mapSet, mapGet, h0, h1, ih]

theorem mapGet_eq_none_iff {α : Type} (m : List (String × α)) (k : String) :
    mapGet m k = none ↔ k ∉ m.map Prod.fst := by
  induction m with
  | nil => simp [mapGet]
  | cons hd tl ih =>
      obtain ⟨k₀, v₀⟩ := hd
      by_cases h : k₀ = k
      · subst h; simp [mapGet]
      · have hne : ¬ k = k₀ := fun h' => h h'.symm
        simp only [mapGet, h, if_false, List.map_cons, List.mem_cons, ih]
        constructor
        · intro hk
          exact fun hc => hc.elim (fun h' => hne h') hk
        · intro hk
          exact fun hc => hk (Or.inr hc)

theorem mapGet_mem {α : Type} (m : List (String × α)) (k : String) (v : α)
    (h : mapGet m k = some v) : (k, v) ∈ m := by
  induction m with
  | nil => simp [mapGet] at h
  | cons hd tl ih =>
      obtain ⟨k₀, v₀⟩ := hd
      by_cases h0 : k₀ = k
      · subst h0
        simp [mapGet] at h
        simp [h]
      · simp [mapGet, h0] at h
        exact List.mem_cons_of_mem _ (ih h)

theorem mem_mapSet {α : Type} (m : List (String × α)) (k : String) (v : α)
    (pr : String × α) (h : pr ∈ mapSet m k v) : pr.2 = v ∨ pr ∈ m := by
  induction m with
  | nil =>
      simp [mapSet] at h
      simp [h]
  | cons hd tl ih =>
      obtain ⟨k₀, v₀⟩ := hd
      by_cases h0 : k₀ = k
      · subst h0
        simp [mapSet] at h
        rcases h with h | h
        · simp [h]
        · simp [h]
      · simp [mapSet, h0] at h
        rcases h with h | h
        · simp [h]
        · rcases ih h with h' | h'
          · exact Or.inl h'
          · exact Or.inr (List.mem_cons_of_mem _ h')

theorem mapKeys_mapSet {α : Type} (m : List (String × α)) (k : String) (v : α) :
    (mapSet m k v).map Prod.fst =
      if k ∈ m.map Prod.fst then m.map Prod.fst else m.map Prod.fst ++ [k] := by
  induction m with
  | nil => simp [mapSet]
  | cons hd tl ih =>
      obtain ⟨k₀, v₀⟩ := hd
      by_cases h0 : k₀ = k
      · subst h0; simp [mapSet]
      · have hne : ¬ k = k₀ := fun h => h0 h.symm
        by_cases hk : k ∈ tl.map Prod.fst <;>
          simp [mapSet, h0, hne, hk, ih]

theorem mapKeys_nodup_mapSet {α : Type} (m : List (String × α)) (k : String) (v : α)
    (h : (m.map Prod.fst).Nodup) : ((mapSet m k v).map Prod.fst).Nodup := by
  rw [mapKeys_mapSet]
  by_cases hk : k ∈ m.map Prod.fst
  · simpa [hk] using h
  · simp only [hk, if_false]
    exact List.Nodup.append h (List.nodup_singleton k) (by simpa using hk)

theorem sumValues_mapSet (m : List (String × ℚ)) (k : String) (v : ℚ) :
    sumValues (mapSet m k v) = sumValues m + v - (mapGet m k).getD 0 := by
  induction m with
  | nil => simp [mapSet, mapGet, sumValues]
  | cons hd tl ih =>
      obtain ⟨k₀, v₀⟩ := hd
      by_cases h0 : k₀ = k
      · subst h0
        simp [mapSet, mapGet, sumValues]
        ring
      · simp [mapSet, mapGet, sumValues, h0] at ih ⊢
        rw [ih]
        ring

theorem valueAt_mapSet (m : List (String × ℚ)) (k k' : String) (v : ℚ) :
    valueAt (mapSet m k v) k' = if k = k' then v else valueAt m k' := by
  unfold valueAt
  rw [mapGet_mapSet]
  by_cases h : k = k' <;> simp [h]

/-! ## Conservation of the balances map (C1 chain) -/

theorem sumValues_phase1 (dbs : List GroupDebtBalance) (m : List (String × ℚ))
    (hfresh : ∀ b ∈ dbs, mapGet m b.phoneNumber = none)
    (hnd : (dbs.map GroupDebtBalance.phoneNumber).Nodup) :
    sumValues (dbs.foldl (fun m' b => mapSet m' b.phoneNumber b.netOwed) m) =
      sumValues m + (dbs.map GroupDebtBalance.netOwed).sum := by
  induction dbs generalizing m with
  | nil => simp
  | cons b rest ih =>
      have hb : mapGet m b.phoneNumber = none := hfresh b (List.mem_cons_self b rest)
      have hnd' : (rest.map GroupDebtBalance.phoneNumber).Nodup := (List.nodup_cons.mp hnd).2
      have hbn : b.phoneNumber ∉ rest.map GroupDebtBalance.phoneNumber :=
        (List.nodup_cons.mp hnd).1
      have hfresh' : ∀ b' ∈ rest, mapGet (mapSet m b.phoneNumber b.netOwed) b'.phoneNumber = none := by
        intro b' hb'
        rw [mapGet_mapSet]
        have : b.phoneNumber ≠ b'.phoneNumber := by
          intro h
          exact hbn (h ▸ List.mem_map_of_mem GroupDebtBalance.phoneNumber hb')
        simp [this]
        exact hfresh b' (List.mem_cons_of_mem _ hb')
      simp only [List.foldl_cons, List.map_cons, List.sum_cons]
      rw [ih _ hfresh' hnd', sumValues_mapSet, hb]
      simp
      ring

theorem sumValues_phase2 (phones : List String) (m : List (String × ℚ)) :
    sumValues (phones.foldl (fun m' p => if mapHas m' p then m' else mapSet m' p 0) m) =
      sumValues m := by
  induction phones generalizing m with
  | nil => simp
  | cons p rest ih =>
      simp only [List.foldl_cons]
      rw [ih]
      by_cases hp : mapHas m p
      · simp [hp]
      · have : mapGet m p = none := by
          unfold mapHas at hp
          cases h : mapGet m p with
          | none => rfl
          | some v => simp [h] at hp
        simp [hp, sumValues_mapSet, this]

theorem sumValues_subRow (row : List (String × ℚ)) (m : List (String × ℚ)) :
    sumValues (row.foldl (fun m' d => mapSet m' d.1 ((mapGet m' d.1).getD 0 - d.2)) m) =
      sumValues m - (row.map Prod.snd).sum := by
  induction row generalizing m with
  | nil => simp
  | cons d rest ih =>
      simp only [List.foldl_cons, List.map_cons, List.sum_cons]
      rw [ih, sumValues_mapSet]
      ring

theorem sumValues_phase3 (dbs : List GroupDebtBalance) (m : List (String × ℚ)) :
    sumValues (dbs.foldl
        (fun m' b => b.debtDetails.foldl
          (fun m'' d => mapSet m'' d.1 ((mapGet m'' d.1).getD 0 - d.2)) m') m) =
      sumValues m - (dbs.map (fun b => (b.debtDetails.map Prod.snd).sum)).sum := by
  induction dbs generalizing m with
  | nil => simp
  | cons b rest ih =>
      simp only [List.foldl_cons, List.map_cons, List.sum_cons]
      rw [ih, sumValues_subRow]
      ring

theorem dmWellFormed_debtStep (paidBy : String) (share : ℚ)
    (dm : List (String × List (String × ℚ))) (phone : String)
    (h : dmWellFormed dm) : dmWellFormed (debtStep paidBy share dm phone) := by
  unfold debtStep
  by_cases hp : phone = paidBy
  · simpa [hp] using h
  · simp only [hp, if_false]
    obtain ⟨hout, hin⟩ := h
    constructor
    · exact mapKeys_nodup_mapSet _ _ _ hout
    · intro pr hpr
      rcases mem_mapSet _ _ _ _ hpr with h2 | h2
      · rw [h2]
        apply mapKeys_nodup_mapSet
        cases hg : mapGet dm phone with
        | none => simp
        | some r =>
            have := mapGet_mem _ _ _ hg
            simpa using hin (phone, r) this
      · exact hin pr h2

theorem dmWellFormed_recordExpenseDebts (dm : List (String × List (String × ℚ)))
    (e : GroupExpense) (h : dmWellFormed dm) :
    dmWellFormed (recordExpenseDebts dm e) := by
  unfold recordExpenseDebts
  generalize e.amount / (e.splitAmongPhones.length : ℚ) = share
  generalize e.splitAmongPhones = l
  induction l generalizing dm with
  | nil => simpa using h
  | cons phone rest ih =>
      simp only [List.foldl_cons]
      exact ih _ (dmWellFormed_debtStep _ _ _ _ h)

theorem dmWellFormed_foldl (l : List GroupExpense)
    (dm : List (String × List (String × ℚ))) (h : dmWellFormed dm) :
    dmWellFormed (l.foldl recordExpenseDebts dm) := by
  induction l generalizing dm with
  | nil => simpa using h
  | cons e rest ih =>
      simp only [List.foldl_cons]
      exact ih _ (dmWellFormed_recordExpenseDebts dm e h)

theorem dmWellFormed_buildDebtMap (expenses : List GroupExpense) :
    dmWellFormed (buildDebtMap expenses) := by
  unfold buildDebtMap
  exact dmWellFormed_foldl _ _ (by constructor <;> simp)

/-- C1: conservation law — for every expense table (each expense having a
non-empty split list), the values of the balances map that
`calculateOptimalSettlement` builds from `getGroupDebtBalances` sum to
exactly zero. -/
theorem conservation_sum_balances (expenses : List GroupExpense)
    (_hsplit : ∀ e ∈ expenses, e.splitAmongPhones ≠ []) :
    sumValues (buildBalances (getGroupDebtBalances expenses)) = 0 := by
  unfold buildBalances
  set dm := buildDebtMap expenses with hdm
  have hwf := dmWellFormed_buildDebtMap expenses
  rw [← hdm] at hwf
  simp only [getGroupDebtBalances, ← hdm]
  rw [sumValues_phase3, sumValues_phase2, sumValues_phase1]
  · simp only [List.map_map]
    have h1 : (dm.map (GroupDebtBalance.netOwed ∘
        fun pr => (⟨pr.1, sumValues pr.2, pr.2⟩ : GroupDebtBalance))).sum =
        (dm.map (fun pr => sumValues pr.2)).sum := by
      congr 1
    have h2 : (dm.map ((fun b => (b.debtDetails.map Prod.snd).sum) ∘
        fun pr => (⟨pr.1, sumValues pr.2, pr.2⟩ : GroupDebtBalance))).sum =
        (dm.map (fun pr => sumValues pr.2)).sum := by
      congr 1
    rw [h1, h2]
    simp [sumValues]
  · intro b _
    rfl
  · simp only [List.map_map]
    have : (GroupDebtBalance.phoneNumber ∘
        fun pr : String × List (String × ℚ) =>
          (⟨pr.1, sumValues pr.2, pr.2⟩ : GroupDebtBalance)) = Prod.fst := rfl
    rw [this]
    exact hwf.1

/-- Witness for C1 at the one-expense table `exSimple`. -/
theorem conservation_sum_balances_witness :
    (∀ e ∈ exSimple, e.splitAmongPhones ≠ []) ∧
      sumValues (buildBalances (getGroupDebtBalances exSimple)) = 0 :=
  ⟨by decide, conservation_sum_balances exSimple (by decide)⟩

/-! ## Lemmas about the greedy settlement loop -/

theorem mathMin_le_left (a b : ℚ) : mathMin a b ≤ a := by
  unfold mathMin; split <;> linarith

theorem mathMin_le_right (a b : ℚ) : mathMin a b ≤ b := by
  unfold mathMin
  split
  · linarith
  · exact le_refl b

theorem mathAbs_of_neg {a : ℚ} (h : a < 0) : mathAbs a = -a := by
  simp [mathAbs, h]

theorem mathAbs_zero : mathAbs 0 = 0 := by
  simp [mathAbs]

theorem settleLoop_amounts (f : Nat) (ds cs : List (String × ℚ)) :
    ∀ tx ∈ settleLoop f ds cs, 1/100 < tx.amount := by
  induction f generalizing ds cs with
  | zero => simp [settleLoop]
  | succ n ih =>
      rcases ds with _ | ⟨⟨dp, da⟩, ds'⟩
      · simp [settleLoop]
      rcases cs with _ | ⟨⟨cp, ca⟩, cs'⟩
      · simp [settleLoop]
      intro tx htx
      simp only [settleLoop] at htx
      rcases List.mem_append.mp htx with h | h
      · split at h
        · next hgt => rcases List.mem_singleton.mp h with rfl; exact hgt
        · simp at h
      · split at h
        · split at h <;> exact ih _ _ tx h
        · split at h <;> exact ih _ _ tx h

theorem settleLoop_phones (f : Nat) (ds cs : List (String × ℚ)) :
    ∀ tx ∈ settleLoop f ds cs,
      tx.fromPhone ∈ ds.map Prod.fst ∧ tx.toPhone ∈ cs.map Prod.fst := by
  induction f generalizing ds cs with
  | zero => simp [settleLoop]
  | succ n ih =>
      rcases ds with _ | ⟨⟨dp, da⟩, ds'⟩
      · simp [settleLoop]
      rcases cs with _ | ⟨⟨cp, ca⟩, cs'⟩
      · simp [settleLoop]
      intro tx htx
      simp only [settleLoop] at htx
      rcases List.mem_append.mp htx with h | h
      · split at h
        · rcases List.mem_singleton.mp h with rfl; simp
        · simp at h
      · have propagate : ∀ (ds₀ cs₀ : List (String × ℚ)),
            tx ∈ settleLoop n ds₀ cs₀ →
            ds₀.map Prod.fst ⊆ dp :: ds'.map Prod.fst →
            cs₀.map Prod.fst ⊆ cp :: cs'.map Prod.fst →
            tx.fromPhone ∈ (dp :: ds'.map Prod.fst) ∧
              tx.toPhone ∈ (cp :: cs'.map Prod.fst) := by
          intro ds₀ cs₀ hmem hds hcs
          obtain ⟨h1, h2⟩ := ih ds₀ cs₀ tx hmem
          exact ⟨hds h1, hcs h2⟩
        have hsub1 : ds'.map Prod.fst ⊆ dp :: ds'.map Prod.fst := by
          intro x hx; exact List.mem_cons_of_mem _ hx
        have hsub2 : cs'.map Prod.fst ⊆ cp :: cs'.map Prod.fst := by
          intro x hx; exact List.mem_cons_of_mem _ hx
        simp only [List.map_cons]
        split at h
        · split at h
          · exact propagate _ _ h hsub1 hsub2
          · exact propagate _ _ h hsub1 (by simp [List.cons_subset, hsub2])
        · split at h
          · exact propagate _ _ h (by simp [List.cons_subset, hsub1]) hsub2
          · exact propagate _ _ h (by simp [List.cons_subset, hsub1])
              (by simp [List.cons_subset, hsub2])

theorem settleLoop_length (f : Nat) (ds cs : List (String × ℚ))
    (hcs : ∀ x ∈ cs, x.2 < 0) :
    (settleLoop f ds cs).length ≤ ds.length + cs.length - 1 := by
  induction f generalizing ds cs with
  | zero => simp [settleLoop]
  | succ n ih =>
      rcases ds with _ | ⟨⟨dp, da⟩, ds'⟩
      · simp [settleLoop]
      rcases cs with _ | ⟨⟨cp, ca⟩, cs'⟩
      · simp [settleLoop]
      have hca : ca < 0 := by simpa using hcs (cp, ca) (List.mem_cons_self _ _)
      have hcs' : ∀ x ∈ cs', x.2 < 0 := fun x hx => hcs x (List.mem_cons_of_mem _ hx)
      simp only [settleLoop]
      have hemit : (if mathMin da (mathAbs ca) > 1/100
          then [(⟨dp, cp, mathMin da (mathAbs ca)⟩ : NetSettlementTransaction)]
          else []).length ≤ 1 := by
        split <;> simp
      rw [List.length_append]
      by_cases h1 : da - mathMin da (mathAbs ca) ≤ 1/100 <;>
        by_cases h2 : mathAbs (ca + mathMin da (mathAbs ca)) ≤ 1/100
      · have hrec := ih ds' cs' hcs'
        simp only [if_pos h1, if_pos h2, List.length_cons]
        omega
      · have hlt : ca + mathMin da (mathAbs ca) < 0 := by
          have hle : mathMin da (mathAbs ca) ≤ -ca :=
            le_of_le_of_eq (mathMin_le_right da (mathAbs ca)) (mathAbs_of_neg hca)
          rcases lt_or_eq_of_le (by linarith : ca + mathMin da (mathAbs ca) ≤ 0) with h | h
          · exact h
          · exact absurd (by rw [h, mathAbs_zero]; norm_num) h2
        have hrec := ih ds' ((cp, ca + mathMin da (mathAbs ca)) :: cs')
          (by
            intro x hx
            rcases List.mem_cons.mp hx with rfl | hx
            · exact hlt
            · exact hcs' x hx)
        simp only [if_pos h1, if_neg h2, List.length_cons] at hrec ⊢
        omega
      · have hrec := ih ((dp, da - mathMin da (mathAbs ca)) :: ds') cs' hcs'
        simp only [if_neg h1, if_pos h2, List.length_cons] at hrec ⊢
        omega
      · exfalso
        by_cases hmin : da ≤ mathAbs ca
        · exact h1 (by norm_num [mathMin, hmin])
        · have : mathMin da (mathAbs ca) = mathAbs ca := by simp [mathMin, hmin]
          rw [this, mathAbs_of_neg hca] at h2
          exact h2 (by norm_num [mathAbs])

/-! ## Lemmas about the stable sort and the balances map -/

theorem mem_orderedInsert {α : Type} (le : α → α → Bool) (a x : α) (l : List α) :
    x ∈ orderedInsert le a l ↔ x = a ∨ x ∈ l := by
  induction l with
  | nil => simp [orderedInsert]
  | cons b t ih =>
      unfold orderedInsert
      split
      · simp
      · simp [ih]
        tauto

theorem length_orderedInsert {α : Type} (le : α → α → Bool) (a : α) (l : List α) :
    (orderedInsert le a l).length = l.length + 1 := by
  induction l with
  | nil => simp [orderedInsert]
  | cons b t ih =>
      unfold orderedInsert
      split <;> simp [ih]

theorem mem_sortBy {α : Type} (le : α → α → Bool) (l : List α) (x : α) :
    x ∈ sortBy le l ↔ x ∈ l := by
  induction l with
  | nil => simp [sortBy]
  | cons a t ih =>
      simp [sortBy, mem_orderedInsert, ih]

theorem length_sortBy {α : Type} (le : α → α → Bool) (l : List α) :
    (sortBy le l).length = l.length := by
  induction l with
  | nil => simp [sortBy]
  | cons a t ih =>
      simp [sortBy, length_orderedInsert, ih]

theorem keys_nodup_foldl {β : Type}
    (step : List (String × ℚ) → β → List (String × ℚ))
    (hstep : ∀ m x, (m.map Prod.fst).Nodup → ((step m x).map Prod.fst).Nodup)
    (l : List β) (m : List (String × ℚ)) (h : (m.map Prod.fst).Nodup) :
    ((l.foldl step m).map Prod.fst).Nodup := by
  induction l generalizing m with
  | nil => simpa using h
  | cons x t ih =>
      simp only [List.foldl_cons]
      exact ih _ (hstep m x h)

theorem buildBalances_keys_nodup (dbs : List GroupDebtBalance) :
    ((buildBalances dbs).map Prod.fst).Nodup := by
  unfold buildBalances
  apply keys_nodup_foldl
  · intro m b hm
    apply keys_nodup_foldl
    · intro m' d hm'
      exact mapKeys_nodup_mapSet _ _ _ hm'
    · exact hm
  · apply keys_nodup_foldl
    · intro m p hm
      by_cases h : mapHas m p
      · simpa [h] using hm
      · simp only [h, Bool.false_eq_true, if_false]
        exact mapKeys_nodup_mapSet _ _ _ hm
    · apply keys_nodup_foldl
      · intro m b hm
        exact mapKeys_nodup_mapSet _ _ _ hm
      · simp

theorem mapGet_of_mem_nodup {α : Type} (m : List (String × α)) (p : String) (v : α)
    (hnd : (m.map Prod.fst).Nodup) (h : (p, v) ∈ m) : mapGet m p = some v := by
  induction m with
  | nil => simp at h
  | cons hd tl ih =>
      obtain ⟨k, w⟩ := hd
      simp only [List.map_cons, List.nodup_cons] at hnd
      rcases List.mem_cons.mp h with h1 | h1
      · rw [Prod.mk.injEq] at h1
        obtain ⟨hp, hv⟩ := h1
        subst hp; subst hv
        simp [mapGet]
      · have hk : k ≠ p := by
          intro hkp
          subst hkp
          exact hnd.1 (by simpa using List.mem_map_of_mem Prod.fst h1)
        simp only [mapGet, hk, if_false]
        exact ih hnd.2 h1

theorem filter_pos_add_filter_neg (l : List (String × ℚ)) :
    (l.filter (fun p => p.2 > 0)).length + (l.filter (fun p => p.2 < 0)).length =
      l.countP (fun p => p.2 ≠ 0) := by
  induction l with
  | nil => simp
  | cons x xs ih =>
      rcases lt_trichotomy x.2 0 with h | h | h
      · rw [List.filter_cons, List.filter_cons, List.countP_cons,
          decide_eq_false (show ¬ (x.2 > 0) by linarith),
          decide_eq_true h, decide_eq_true (show x.2 ≠ 0 from ne_of_lt h)]
        simp only [Bool.false_eq_true, if_false, if_true, List.length_cons]
        omega
      · rw [List.filter_cons, List.filter_cons, List.countP_cons,
          decide_eq_false (show ¬ (x.2 > 0) by rw [h]; exact lt_irrefl 0),
          decide_eq_false (show ¬ (x.2 < 0) by rw [h]; exact lt_irrefl 0),
          decide_eq_false (show ¬ (x.2 ≠ 0) from fun hne => hne h)]
        simp only [Bool.false_eq_true, if_false]
        omega
      · rw [List.filter_cons, List.filter_cons, List.countP_cons,
          decide_eq_true (show x.2 > 0 from h),
          decide_eq_false (show ¬ (x.2 < 0) by linarith),
          decide_eq_true (show x.2 ≠ 0 from ne_of_gt h)]
        simp only [Bool.false_eq_true, if_false, if_true, List.length_cons]
        omega

/-- C4: the settlement plan holds at most `k − 1` transactions, `k` being
the number of members with a nonzero balance (for `k = 0` the natural
subtraction makes the bound `0 = max 0 (k − 1)`); moreover a transaction's
sender always carries a strictly positive balance and its recipient a
strictly negative one, so a member whose net position is exactly zero never
appears in the plan. -/
theorem settlement_plan_bound (expenses : List GroupExpense) :
    (calculateOptimalSettlement expenses).length ≤ nonzeroMemberCount expenses - 1 ∧
    ∀ tx ∈ calculateOptimalSettlement expenses,
      0 < finalBalance expenses tx.fromPhone ∧ finalBalance expenses tx.toPhone < 0 := by
  have hnd := buildBalances_keys_nodup (getGroupDebtBalances expenses)
  set bal := buildBalances (getGroupDebtBalances expenses) with hb
  set debtors := sortBy (fun a b => a.2 ≥ b.2) (bal.filter (fun p => p.2 > 0)) with hdeb
  set creditors := sortBy (fun a b => a.2 ≤ b.2) (bal.filter (fun p => p.2 < 0)) with hcred
  have hplan : calculateOptimalSettlement expenses =
      settleLoop (debtors.length + creditors.length) debtors creditors := rfl
  have hcs : ∀ x ∈ creditors, x.2 < 0 := by
    intro x hx
    rw [hcred] at hx
    have := List.mem_filter.mp ((mem_sortBy _ _ _).mp hx)
    exact of_decide_eq_true this.2
  constructor
  · rw [hplan]
    have hk : nonzeroMemberCount expenses = bal.countP (fun p => p.2 ≠ 0) := rfl
    rw [hk]
    calc (settleLoop (debtors.length + creditors.length) debtors creditors).length
        ≤ debtors.length + creditors.length - 1 :=
          settleLoop_length _ debtors creditors hcs
      _ = bal.countP (fun p => p.2 ≠ 0) - 1 := by
          rw [hdeb, hcred, length_sortBy, length_sortBy, filter_pos_add_filter_neg]
  · intro tx htx
    rw [hplan] at htx
    obtain ⟨h1, h2⟩ := settleLoop_phones _ _ _ tx htx
    rw [hdeb] at h1
    rw [hcred] at h2
    constructor
    · obtain ⟨pr, hpr, hfst⟩ := List.mem_map.mp h1
      have hmem := List.mem_filter.mp ((mem_sortBy _ _ _).mp hpr)
      have hget : mapGet bal tx.fromPhone = some pr.2 := by
        rw [← hfst]
        exact mapGet_of_mem_nodup _ _ _ hnd (by rw [Prod.mk.eta]; exact hmem.1)
      unfold finalBalance valueAt
      rw [← hb, hget]
      exact of_decide_eq_true hmem.2
    · obtain ⟨pr, hpr, hfst⟩ := List.mem_map.mp h2
      have hmem := List.mem_filter.mp ((mem_sortBy _ _ _).mp hpr)
      have hget : mapGet bal tx.toPhone = some pr.2 := by
        rw [← hfst]
        exact mapGet_of_mem_nodup _ _ _ hnd (by rw [Prod.mk.eta]; exact hmem.1)
      unfold finalBalance valueAt
      rw [← hb, hget]
      exact of_decide_eq_true hmem.2

/-- Witness for C4 at `exSimple`: the plan `[B→A 5]` has one transaction,
the table has two members with nonzero balances, and both endpoints of the
transaction carry nonzero balances. -/
theorem settlement_plan_bound_witness :
    (calculateOptimalSettlement exSimple).length ≤ nonzeroMemberCount exSimple - 1 ∧
      (0 < finalBalance exSimple "B" ∧ finalBalance exSimple "A" < 0) :=
  ⟨(settlement_plan_bound exSimple).1,
   (settlement_plan_bound exSimple).2 ⟨"B", "A", 5⟩ (by
      norm_num +decide [calculateOptimalSettlement, getGroupDebtBalances, buildDebtMap,
        recordExpenseDebts, debtStep, buildBalances, mapSet, mapGet, mapHas, dedupFirst,
        sortBy, orderedInsert, settleLoop, sumValues, valueAt, mathMin, mathAbs,
        exSimple, expAB])⟩

/-- C3 (amended): the planner emits only transactions whose amount exceeds
the `0.01` dust guard; settle amounts at or below `0.01` are skipped rather
than emitted, so the plan is not guaranteed to zero every balance. -/
theorem settlement_amounts_above_dust (expenses : List GroupExpense) :
    ∀ tx ∈ calculateOptimalSettlement expenses, 1/100 < tx.amount := by
  intro tx htx
  exact settleLoop_amounts _ _ _ tx htx

/-- Witness for C3's amended theorem at `exSimple`. -/
theorem settlement_amounts_above_dust_witness :
    (⟨"B", "A", 5⟩ : NetSettlementTransaction) ∈ calculateOptimalSettlement exSimple ∧
      1/100 < (⟨"B", "A", 5⟩ : NetSettlementTransaction).amount := by
  have hmem : (⟨"B", "A", 5⟩ : NetSettlementTransaction) ∈ calculateOptimalSettlement exSimple := by
    norm_num +decide [calculateOptimalSettlement, getGroupDebtBalances, buildDebtMap,
      recordExpenseDebts, debtStep, buildBalances, mapSet, mapGet, mapHas, dedupFirst,
      sortBy, orderedInsert, settleLoop, sumValues, valueAt, mathMin, mathAbs,
      exSimple, expAB]
  exact ⟨hmem, settlement_amounts_above_dust exSimple _ hmem⟩

/-- Counterexample for C3 as stated: on the table holding only the 0.01
expense, B's net position is 1/200 ≠ 0 and the table satisfies the
conservation invariant, yet the plan is empty — the sub-dust settlement is
skipped and B's balance is never zeroed. -/
theorem dust_skipping_counterexample :
    calculateOptimalSettlement exDust = [] ∧
      finalBalance exDust "B" = 1/200 ∧
      sumValues (buildBalances (getGroupDebtBalances exDust)) = 0 := by
  refine ⟨?_, ?_, ?_⟩ <;>
    norm_num +decide [calculateOptimalSettlement, getGroupDebtBalances, buildDebtMap,
      recordExpenseDebts, debtStep, buildBalances, mapSet, mapGet, mapHas, dedupFirst,
      sortBy, orderedInsert, settleLoop, sumValues, valueAt, mathMin, mathAbs,
      finalBalance, exDust, expDust]

/-! ## Lemmas about settlement execution -/

theorem runSettlements_append (succeeds : NetSettlementTransaction → Bool)
    (pre post : List NetSettlementTransaction) :
    runSettlements succeeds (pre ++ post) =
      runSettlements succeeds pre ++ runSettlements succeeds post := by
  induction pre with
  | nil => simp [runSettlements]
  | cons t rest ih => simp [runSettlements, ih]

theorem length_runSettlements (succeeds : NetSettlementTransaction → Bool)
    (l : List NetSettlementTransaction) :
    (runSettlements succeeds l).length = l.countP succeeds := by
  induction l with
  | nil => simp [runSettlements]
  | cons t rest ih =>
      by_cases h : succeeds t <;> simp [runSettlements, List.countP_cons, h, ih]

theorem mem_runSettlements (succeeds : NetSettlementTransaction → Bool)
    (l : List NetSettlementTransaction) (tx : NetSettlementTransaction)
    (hmem : tx ∈ l) (hsucc : succeeds tx = true) :
    tx ∈ runSettlements succeeds l := by
  induction l with
  | nil => simp at hmem
  | cons t rest ih =>
      rcases List.mem_cons.mp hmem with rfl | h
      · simp [runSettlements, hsucc]
      · unfold runSettlements
        exact List.mem_append_right _ (ih h)

theorem runSettlements_all_true (succeeds : NetSettlementTransaction → Bool)
    (l : List NetSettlementTransaction) (h : ∀ tx ∈ l, succeeds tx = true) :
    runSettlements succeeds l = l := by
  induction l with
  | nil => rfl
  | cons t rest ih =>
      have ht := h t (List.mem_cons_self _ _)
      simp [runSettlements, ht, ih fun tx htx => h tx (List.mem_cons_of_mem _ htx)]

theorem calculateOptimalSettlement_all_settled (expenses : List GroupExpense)
    (h : ∀ e ∈ expenses, e.settled = true) :
    calculateOptimalSettlement expenses = [] := by
  have h0 : expenses.filter (fun e => !e.settled) = [] := by
    rw [List.filter_eq_nil_iff]
    intro e he
    simp [h e he]
  unfold calculateOptimalSettlement getGroupDebtBalances buildDebtMap
  rw [h0]
  rfl

/-- C9: transfers of a plan are attempted independently — outcomes compose
over any decomposition of the plan, the run never aborts early (it reports
one result per succeeding transaction of the whole plan), and a succeeding
transfer lands in the results no matter how the transfers before it
fared. -/
theorem settlement_execution_independent (succeeds : NetSettlementTransaction → Bool)
    (pre post : List NetSettlementTransaction) :
    runSettlements succeeds (pre ++ post) =
        runSettlements succeeds pre ++ runSettlements succeeds post ∧
      (runSettlements succeeds (pre ++ post)).length = (pre ++ post).countP succeeds ∧
      ∀ tx ∈ post, succeeds tx = true → tx ∈ runSettlements succeeds (pre ++ post) := by
  refine ⟨runSettlements_append _ _ _, length_runSettlements _ _, ?_⟩
  intro tx hmem hsucc
  exact mem_runSettlements _ _ tx (List.mem_append_right _ hmem) hsucc

/-- Witness for C9: B→A 5 succeeds and is reported even though the earlier
D→C 4 transfer fails. -/
theorem settlement_execution_independent_witness :
    (⟨"B", "A", 5⟩ : NetSettlementTransaction) ∈ [(⟨"B", "A", 5⟩ : NetSettlementTransaction)] ∧
      succOnlyB ⟨"B", "A", 5⟩ = true ∧
      (⟨"B", "A", 5⟩ : NetSettlementTransaction) ∈
        runSettlements succOnlyB ([⟨"D", "C", 4⟩] ++ [⟨"B", "A", 5⟩]) := by
  refine ⟨List.mem_singleton_self _, rfl, ?_⟩
  exact (settlement_execution_independent succOnlyB [⟨"D", "C", 4⟩] [⟨"B", "A", 5⟩]).2.2
    _ (List.mem_singleton_self _) rfl

/-- C8: when every planned transfer succeeds, the run marks every expense
settled, and a second settlement computation on the resulting table
produces the empty plan. -/
theorem settlement_idempotent (expenses : List GroupExpense)
    (succeeds : NetSettlementTransaction → Bool)
    (hall : ∀ tx ∈ calculateOptimalSettlement expenses, succeeds tx = true) :
    calculateOptimalSettlement
      (executeOptimalSettlement expenses succeeds).expensesAfter = [] := by
  have hrun : runSettlements succeeds (calculateOptimalSettlement expenses) =
      calculateOptimalSettlement expenses := runSettlements_all_true _ _ hall
  have hafter : (executeOptimalSettlement expenses succeeds).expensesAfter =
      expenses.map (fun e => if e.settled then e else { e with settled := true }) := by
    unfold executeOptimalSettlement
    simp [hrun]
  rw [hafter]
  apply calculateOptimalSettlement_all_settled
  intro e he
  obtain ⟨e0, _, rfl⟩ := List.mem_map.mp he
  by_cases h : e0.settled <;> simp [h]

/-- Witness for C8 at `exSimple` with an always-succeeding payment rail. -/
theorem settlement_idempotent_witness :
    (∀ tx ∈ calculateOptimalSettlement exSimple, (fun _ => true) tx = true) ∧
      calculateOptimalSettlement
        (executeOptimalSettlement exSimple (fun _ => true)).expensesAfter = [] :=
  ⟨fun _ _ => rfl, settlement_idempotent exSimple _ (fun _ _ => rfl)⟩

/-- C6 (amended): expenses are marked settled only when every planned
transfer succeeded; on a partial (or wholly failed) run no expense at all is
marked settled — the whole table, and hence every net position, is left
intact for a future run. -/
theorem settlement_marking (expenses : List GroupExpense)
    (succeeds : NetSettlementTransaction → Bool) :
    ((executeOptimalSettlement expenses succeeds).results.length =
          (calculateOptimalSettlement expenses).length →
        ∀ e ∈ (executeOptimalSettlement expenses succeeds).expensesAfter,
          e.settled = true) ∧
      ((executeOptimalSettlement expenses succeeds).results.length ≠
          (calculateOptimalSettlement expenses).length →
        (executeOptimalSettlement expenses succeeds).expensesAfter = expenses) := by
  have hres : (executeOptimalSettlement expenses succeeds).results =
      runSettlements succeeds (calculateOptimalSettlement expenses) := rfl
  by_cases hc : (runSettlements succeeds (calculateOptimalSettlement expenses)).length =
      (calculateOptimalSettlement expenses).length
  · constructor
    · intro _ e he
      have hafter : (executeOptimalSettlement expenses succeeds).expensesAfter =
          expenses.map (fun e => if e.settled then e else { e with settled := true }) := by
        unfold executeOptimalSettlement
        simp [hc]
      rw [hafter] at he
      obtain ⟨e0, _, rfl⟩ := List.mem_map.mp he
      by_cases h : e0.settled <;> simp [h]
    · intro hne
      exact absurd (hres ▸ hc) hne
  · constructor
    · intro heq
      exact absurd (hres ▸ heq) hc
    · intro _
      unfold executeOptimalSettlement
      simp [hc]

/-- Witness for C6's amended theorem: under `succOnlyB` only one of the two
planned transfers of `exPair` succeeds, and the expense table is returned
unchanged. -/
theorem settlement_marking_witness :
    (executeOptimalSettlement exPair succOnlyB).results.length ≠
        (calculateOptimalSettlement exPair).length ∧
      (executeOptimalSettlement exPair succOnlyB).expensesAfter = exPair := by
  have hne : (executeOptimalSettlement exPair succOnlyB).results.length ≠
      (calculateOptimalSettlement exPair).length := by
    norm_num +decide [executeOptimalSettlement, runSettlements, succOnlyB,
      calculateOptimalSettlement, getGroupDebtBalances, buildDebtMap, recordExpenseDebts,
      debtStep, buildBalances, mapSet, mapGet, mapHas, dedupFirst, sortBy, orderedInsert,
      settleLoop, sumValues, valueAt, mathMin, mathAbs, exPair, expAB, expCD]
  exact ⟨hne, (settlement_marking exPair succOnlyB).2 hne⟩

/-- Counterexample for C6 as stated: under `succOnlyB` the run on `exPair`
is partial (one confirmed transfer out of two), the confirmed transfer
B→A 5 fully resolves the expense `expAB` in the spec's sense, and yet the
run marks nothing settled — `expAB` does not get `settled = true` even
though it is fully resolved. -/
theorem partial_marking_counterexample :
    (executeOptimalSettlement exPair succOnlyB).results = [⟨"B", "A", 5⟩] ∧
      (calculateOptimalSettlement exPair).length = 2 ∧
      specFullyResolved [⟨"B", "A", 5⟩] expAB ∧
      (executeOptimalSettlement exPair succOnlyB).expensesAfter = exPair ∧
      expAB.settled = false := by
  refine ⟨?_, ?_, ?_, ?_, rfl⟩ <;>
    norm_num +decide [executeOptimalSettlement, runSettlements, succOnlyB,
      calculateOptimalSettlement, getGroupDebtBalances, buildDebtMap, recordExpenseDebts,
      debtStep, buildBalances, mapSet, mapGet, mapHas, dedupFirst, sortBy, orderedInsert,
      settleLoop, sumValues, valueAt, mathMin, mathAbs, specFullyResolved,
      exPair, expAB, expCD]

/-! ## Row and column totals of the debt map (C5 chain) -/

theorem valueAt_nil (p : String) : valueAt [] p = 0 := rfl

theorem rowSum_mapSet (dm : List (String × List (String × ℚ))) (k : String)
    (row : List (String × ℚ)) (p : String) :
    rowSum (mapSet dm k row) p = if k = p then sumValues row else rowSum dm p := by
  unfold rowSum
  rw [mapGet_mapSet]
  by_cases h : k = p <;> simp [h]

theorem colSum_mapSet (dm : List (String × List (String × ℚ))) (k : String)
    (row : List (String × ℚ)) (p : String) :
    colSum (mapSet dm k row) p =
      colSum dm p + valueAt row p - valueAt ((mapGet dm k).getD []) p := by
  induction dm with
  | nil => simp [mapSet, colSum, mapGet, valueAt]
  | cons hd tl ih =>
      obtain ⟨k0, row0⟩ := hd
      by_cases h : k0 = k
      · subst h
        simp [mapSet, colSum, mapGet]
        ring
      · simp only [mapSet, h, if_false, colSum, List.map_cons, List.sum_cons, mapGet] at ih ⊢
        rw [ih]
        ring

theorem rowSum_debtStep (payer : String) (share : ℚ)
    (dm : List (String × List (String × ℚ))) (phone p : String) :
    rowSum (debtStep payer share dm phone) p =
      rowSum dm p + (if phone = p ∧ phone ≠ payer then share else 0) := by
  unfold debtStep
  by_cases hp : phone = payer
  · simp [hp]
  · simp only [hp, if_false]
    rw [rowSum_mapSet]
    by_cases he : phone = p
    · subst he
      rw [sumValues_mapSet]
      unfold rowSum
      simp [hp]
      ring
    · simp [he, hp]

theorem colSum_debtStep (payer : String) (share : ℚ)
    (dm : List (String × List (String × ℚ))) (phone p : String) :
    colSum (debtStep payer share dm phone) p =
      colSum dm p + (if p = payer ∧ phone ≠ payer then share else 0) := by
  unfold debtStep
  by_cases hp : phone = payer
  · simp [hp]
  · simp only [hp, if_false]
    rw [colSum_mapSet, valueAt_mapSet]
    by_cases he : payer = p
    · subst he
      simp only [hp, if_true, ne_eq, not_false_iff, and_true, if_pos rfl]
      unfold valueAt
      ring
    · have : ¬ (p = payer ∧ phone ≠ payer) := fun hc => he hc.1.symm
      simp only [he, if_false, this]
      ring

theorem rowSum_foldl_debtStep (l : List String) (payer : String) (share : ℚ)
    (dm : List (String × List (String × ℚ))) (p : String) :
    rowSum (l.foldl (debtStep payer share) dm) p =
      rowSum dm p + (if p = payer then 0 else (l.count p : ℚ) * share) := by
  induction l generalizing dm with
  | nil => simp
  | cons x xs ih =>
      simp only [List.foldl_cons]
      rw [ih, rowSum_debtStep]
      by_cases hp : p = payer
      · subst hp
        have hcond : ¬ (x = p ∧ x ≠ p) := fun hc => hc.2 hc.1
        simp [if_neg hcond]
      · by_cases hx : x = p
        · subst hx
          rw [List.count_cons_self, if_pos (⟨rfl, hp⟩ : x = x ∧ x ≠ payer),
            if_neg hp, if_neg hp]
          push_cast
          ring
        · have hbeq : (x == p) = false := beq_eq_false_iff_ne.mpr hx
          rw [List.count_cons, hbeq,
            if_neg (fun hc : x = p ∧ x ≠ payer => hx hc.1), if_neg hp, if_neg hp]
          simp

theorem colSum_foldl_debtStep (l : List String) (payer : String) (share : ℚ)
    (dm : List (String × List (String × ℚ))) (p : String) :
    colSum (l.foldl (debtStep payer share) dm) p =
      colSum dm p +
        (if p = payer then (l.countP (fun x => x ≠ payer) : ℚ) * share else 0) := by
  induction l generalizing dm with
  | nil => simp
  | cons x xs ih =>
      simp only [List.foldl_cons]
      rw [ih, colSum_debtStep]
      by_cases hp : p = payer
      · subst hp
        by_cases hx : x = p
        · have hcond : ¬ (p = p ∧ x ≠ p) := fun hc => hc.2 hx
          have hcnt : (decide (x ≠ p)) = false := decide_eq_false (by simpa using hx)
          rw [List.countP_cons, hcnt, if_neg hcond, if_pos rfl, if_pos rfl]
          simp
        · have hcond : (p = p ∧ x ≠ p) := ⟨rfl, hx⟩
          have hcnt : (decide (x ≠ p)) = true := decide_eq_true hx
          rw [List.countP_cons, hcnt, if_pos hcond, if_pos rfl, if_pos rfl]
          simp only [if_true]
          push_cast
          ring
      · have hcond : ¬ (p = payer ∧ x ≠ payer) := fun hc => hp hc.1
        simp [hcond, hp]

theorem rowSum_eq_zero_of_not_mem (dm : List (String × List (String × ℚ)))
    (p : String) (h : p ∉ dm.map Prod.fst) : rowSum dm p = 0 := by
  unfold rowSum
  rw [(mapGet_eq_none_iff dm p).mpr h]
  simp [sumValues]

theorem valueAt_phase1 (dm : List (String × List (String × ℚ)))
    (m : List (String × ℚ)) (hnd : (dm.map Prod.fst).Nodup) (p : String) :
    valueAt ((dm.map (fun pr => (⟨pr.1, sumValues pr.2, pr.2⟩ : GroupDebtBalance))).foldl
        (fun m' b => mapSet m' b.phoneNumber b.netOwed) m) p =
      if p ∈ dm.map Prod.fst then rowSum dm p else valueAt m p := by
  induction dm generalizing m with
  | nil => simp
  | cons hd tl ih =>
      obtain ⟨k, row⟩ := hd
      simp only [List.map_cons, List.nodup_cons] at hnd
      simp only [List.map_cons, List.foldl_cons]
      rw [ih _ hnd.2]
      by_cases hmem : p ∈ tl.map Prod.fst
      · have hkp : k ≠ p := fun h => hnd.1 (h ▸ hmem)
        rw [if_pos hmem, if_pos (List.mem_cons_of_mem _ hmem)]
        unfold rowSum
        simp [mapGet, hkp]
      · rw [if_neg hmem, valueAt_mapSet]
        by_cases hk : k = p
        · subst hk
          rw [if_pos (List.mem_cons_self _ _)]
          unfold rowSum
          simp [mapGet]
        · rw [if_neg hk, if_neg (by
            intro hc
            rcases List.mem_cons.mp hc with h | h
            · exact hk h.symm
            · exact hmem h)]

theorem valueAt_phase2 (phones : List String) (m : List (String × ℚ)) (p : String) :
    valueAt (phones.foldl
        (fun m' q => if mapHas m' q then m' else mapSet m' q 0) m) p = valueAt m p := by
  induction phones generalizing m with
  | nil => rfl
  | cons q rest ih =>
      simp only [List.foldl_cons]
      rw [ih]
      by_cases h : mapHas m q
      · simp [h]
      · simp only [h, Bool.false_eq_true, if_false]
        rw [valueAt_mapSet]
        by_cases hq : q = p
        · subst hq
          have hnone : mapGet m q = none := by
            unfold mapHas at h
            cases hmg : mapGet m q with
            | none => rfl
            | some v => rw [hmg] at h; simp at h
          simp [valueAt, hnone]
        · simp [hq]

theorem valueAt_subRow (row : List (String × ℚ)) (m : List (String × ℚ)) (p : String) :
    valueAt (row.foldl
        (fun m' d => mapSet m' d.1 ((mapGet m' d.1).getD 0 - d.2)) m) p =
      valueAt m p - ((row.filter (fun d => d.1 = p)).map Prod.snd).sum := by
  induction row generalizing m with
  | nil => simp
  | cons d rest ih =>
      simp only [List.foldl_cons]
      rw [ih, valueAt_mapSet]
      by_cases hd : d.1 = p
      · rw [List.filter_cons_of_pos (by simp [hd]), if_pos hd]
        simp only [List.map_cons, List.sum_cons]
        unfold valueAt
        rw [hd]
        ring
      · rw [List.filter_cons_of_neg (by simp [hd]), if_neg hd]

theorem valueAt_phase3 (dbs : List GroupDebtBalance) (m : List (String × ℚ)) (p : String) :
    valueAt (dbs.foldl
        (fun m' b => b.debtDetails.foldl
          (fun m'' d => mapSet m'' d.1 ((mapGet m'' d.1).getD 0 - d.2)) m') m) p =
      valueAt m p -
        (dbs.map (fun b => ((b.debtDetails.filter (fun d => d.1 = p)).map Prod.snd).sum)).sum := by
  induction dbs generalizing m with
  | nil => simp
  | cons b rest ih =>
      simp only [List.foldl_cons, List.map_cons, List.sum_cons]
      rw [ih, valueAt_subRow]
      ring

theorem keySum_eq_valueAt (row : List (String × ℚ)) (p : String)
    (hnd : (row.map Prod.fst).Nodup) :
    ((row.filter (fun d => d.1 = p)).map Prod.snd).sum = valueAt row p := by
  induction row with
  | nil => simp [valueAt, mapGet]
  | cons d rest ih =>
      obtain ⟨k, v⟩ := d
      simp only [List.map_cons, List.nodup_cons] at hnd
      by_cases hd : k = p
      · subst hd
        rw [List.filter_cons_of_pos (by simp)]
        have hrest : rest.filter (fun d => d.1 = k) = [] := by
          rw [List.filter_eq_nil_iff]
          intro a ha hk
          exact hnd.1 (of_decide_eq_true hk ▸ List.mem_map_of_mem Prod.fst ha)
        simp [valueAt, mapGet, hrest]
      · rw [List.filter_cons_of_neg (by simp [hd])]
        rw [ih hnd.2]
        simp [valueAt, mapGet, hd]

theorem valueAt_buildBalances (dm : List (String × List (String × ℚ)))
    (hwf : dmWellFormed dm) (p : String) :
    valueAt (buildBalances (dm.map (fun pr => ⟨pr.1, sumValues pr.2, pr.2⟩))) p =
      rowSum dm p - colSum dm p := by
  unfold buildBalances
  rw [valueAt_phase3, valueAt_phase2, valueAt_phase1 _ _ hwf.1]
  have h1 : (if p ∈ dm.map Prod.fst then rowSum dm p else valueAt [] p) = rowSum dm p := by
    split
    · rfl
    · rw [valueAt_nil, (rowSum_eq_zero_of_not_mem dm p (by assumption)).symm]
  rw [h1]
  have h2 : ((dm.map (fun pr => (⟨pr.1, sumValues pr.2, pr.2⟩ : GroupDebtBalance))).map
      (fun b => ((b.debtDetails.filter (fun d => d.1 = p)).map Prod.snd).sum)).sum =
      colSum dm p := by
    rw [List.map_map]
    unfold colSum
    congr 1
    apply List.map_congr_left
    intro pr hpr
    exact keySum_eq_valueAt pr.2 p (hwf.2 pr hpr)
  rw [h2]

theorem finalBalance_eq (expenses : List GroupExpense) (p : String) :
    finalBalance expenses p =
      rowSum (buildDebtMap expenses) p - colSum (buildDebtMap expenses) p :=
  valueAt_buildBalances (buildDebtMap expenses) (dmWellFormed_buildDebtMap expenses) p

theorem buildDebtMap_append (es : List GroupExpense) (e : GroupExpense)
    (hset : e.settled = false) :
    buildDebtMap (es ++ [e]) = recordExpenseDebts (buildDebtMap es) e := by
  unfold buildDebtMap
  rw [List.filter_append, List.foldl_append]
  simp [hset]

theorem countP_ne_add_count (l : List String) (a : String) :
    l.countP (fun x => x ≠ a) + l.count a = l.length := by
  induction l with
  | nil => simp
  | cons x xs ih =>
      by_cases hx : x = a
      · subst hx
        rw [List.countP_cons, List.count_cons_self,
          decide_eq_false (show ¬ x ≠ x from fun h => h rfl)]
        simp only [Bool.false_eq_true, if_false, List.length_cons]
        omega
      · rw [List.countP_cons, List.count_cons, beq_eq_false_iff_ne.mpr hx,
          decide_eq_true hx]
        simp only [Bool.false_eq_true, if_false, if_true, List.length_cons]
        omega

/-- C5: adding an expense whose payer is also a split participant creates
no self-debt — the payer's net position rises by the amount minus the
payer's own share, every other split member's position falls by exactly
their share, everyone else is untouched; and for a single expense whose
split list is exactly the payer alone, every net position is zero and the
settlement plan is empty. -/
theorem no_self_debt (es : List GroupExpense) (e : GroupExpense) (p : String)
    (hnodup : e.splitAmongPhones.Nodup)
    (hpayer : e.paidByPhone ∈ e.splitAmongPhones)
    (hset : e.settled = false) :
    (netPosition (es ++ [e]) p = netPosition es p +
        (if p = e.paidByPhone then
            e.amount - e.amount / (e.splitAmongPhones.length : ℚ)
         else if p ∈ e.splitAmongPhones then
            -(e.amount / (e.splitAmongPhones.length : ℚ))
         else 0)) ∧
      (∀ payer : String, ∀ amt : ℚ, ∀ q : String,
        netPosition [⟨payer, amt, [payer], false⟩] q = 0 ∧
          calculateOptimalSettlement [⟨payer, amt, [payer], false⟩] = []) := by
  constructor
  · unfold netPosition
    rw [finalBalance_eq, finalBalance_eq, buildDebtMap_append es e hset]
    unfold recordExpenseDebts
    rw [rowSum_foldl_debtStep, colSum_foldl_debtStep]
    have hne : e.splitAmongPhones ≠ [] := fun h => by simp [h] at hpayer
    have hn0 : ((e.splitAmongPhones.length : ℚ)) ≠ 0 := by
      have : e.splitAmongPhones.length ≠ 0 :=
        fun h => hne (List.length_eq_zero.mp h)
      exact_mod_cast this
    by_cases hp : p = e.paidByPhone
    · have hcnt : e.splitAmongPhones.countP (fun x => x ≠ e.paidByPhone) =
          e.splitAmongPhones.length - 1 := by
        have h1 := countP_ne_add_count e.splitAmongPhones e.paidByPhone
        have h2 : e.splitAmongPhones.count e.paidByPhone = 1 :=
          List.count_eq_one_of_mem hnodup hpayer
        omega
      have hlen1 : 1 ≤ e.splitAmongPhones.length := List.length_pos.mpr hne
      rw [if_pos hp, if_pos hp, if_pos hp, hcnt]
      have hcast : ((e.splitAmongPhones.length - 1 : ℕ) : ℚ) =
          (e.splitAmongPhones.length : ℚ) - 1 := by
        push_cast [Nat.cast_sub hlen1]
        ring
      rw [hcast]
      have hmul : ((e.splitAmongPhones.length : ℚ)) *
          (e.amount / (e.splitAmongPhones.length : ℚ)) = e.amount := by
        field_simp
      nlinarith [hmul]
    · rw [if_neg hp, if_neg hp, if_neg hp]
      by_cases hmem : p ∈ e.splitAmongPhones
      · rw [if_pos hmem]
        have hcnt : e.splitAmongPhones.count p = 1 :=
          List.count_eq_one_of_mem hnodup hmem
        rw [hcnt]
        push_cast
        ring
      · rw [if_neg hmem]
        have hcnt : e.splitAmongPhones.count p = 0 :=
          List.count_eq_zero_of_not_mem hmem
        rw [hcnt]
        push_cast
        ring
  · intro payer amt q
    have hdm : buildDebtMap [⟨payer, amt, [payer], false⟩] = [] := by
      simp [buildDebtMap, recordExpenseDebts, debtStep]
    constructor
    · simp [netPosition, finalBalance, getGroupDebtBalances, hdm, buildBalances,
        dedupFirst, valueAt, mapGet]
    · simp [calculateOptimalSettlement, getGroupDebtBalances, hdm, buildBalances,
        dedupFirst, sortBy, settleLoop]

/-- Witness for C5 at the single expense `expAB` (payer A in the split):
B's position falls by B's share 5. -/
theorem no_self_debt_witness :
    expAB.splitAmongPhones.Nodup ∧
      expAB.paidByPhone ∈ expAB.splitAmongPhones ∧
      expAB.settled = false ∧
      netPosition ([] ++ [expAB]) "B" = netPosition [] "B" +
        (if "B" = expAB.paidByPhone then
            expAB.amount - expAB.amount / (expAB.splitAmongPhones.length : ℚ)
         else if "B" ∈ expAB.splitAmongPhones then
            -(expAB.amount / (expAB.splitAmongPhones.length : ℚ))
         else 0) :=
  ⟨by decide, by decide, rfl,
    (no_self_debt [] expAB "B" (by decide) (by decide) rfl).1⟩

/-! ## The on-chain equal split (C2) -/

theorem sum_ite_range (n q r : Nat) :
    ((List.range n).map (fun j => if j < r then q + 1 else q)).sum =
      n * q + min r n := by
  induction n with
  | zero => simp
  | succ n ih =>
      rw [List.range_succ, List.map_append, List.sum_append]
      simp only [List.map_cons, List.map_nil, List.sum_cons, List.sum_nil]
      by_cases h : n < r
      · have h1 : min r n = n := Nat.min_eq_right (Nat.le_of_lt h)
        have h2 : min r (n + 1) = n + 1 := Nat.min_eq_right h
        rw [if_pos h, ih, h1, h2, Nat.succ_mul]
        omega
      · have h1 : min r n = r := Nat.min_eq_left (Nat.le_of_not_lt h)
        have h2 : min r (n + 1) = r := Nat.min_eq_left (by omega)
        rw [if_neg h, ih, h1, h2, Nat.succ_mul]
        omega

/-- C2 (amended, on `propose_group_expense` of `contracts/group_treasury.move`):
the default equal split computes one share per participant, the `j`-th share
is `⌊a/n⌋` plus one extra minor unit exactly when `j < a mod n`, and the
shares sum to exactly `a` for every participant count `n ≥ 1`. -/
theorem equal_split_exact (a n : Nat) (_ha : 0 < a) (hn : 1 ≤ n) :
    (equalSplitAmounts a n).length = n ∧
      (equalSplitAmounts a n).sum = a ∧
      ∀ j, j < n → (equalSplitAmounts a n).getD j 0 =
        a / n + (if j < a % n then 1 else 0) := by
  refine ⟨by simp [equalSplitAmounts], ?_, ?_⟩
  · unfold equalSplitAmounts
    rw [sum_ite_range]
    have hmod : a % n < n := Nat.mod_lt a (by omega)
    rw [Nat.min_eq_left (Nat.le_of_lt hmod)]
    have := Nat.div_add_mod a n
    omega
  · intro j hj
    have hlen : j < (equalSplitAmounts a n).length := by
      simpa [equalSplitAmounts] using hj
    rw [List.getD_eq_getElem _ _ hlen]
    simp only [equalSplitAmounts, List.getElem_map, List.getElem_range]
    split <;> omega

/-- Witness for C2's amended theorem at `a = 5`, `n = 2`: shares `[3, 2]`
summing to 5. -/
theorem equal_split_exact_witness :
    0 < 5 ∧ 1 ≤ 2 ∧
      ((equalSplitAmounts 5 2).length = 2 ∧
        (equalSplitAmounts 5 2).sum = 5 ∧
        ∀ j, j < 2 → (equalSplitAmounts 5 2).getD j 0 =
          5 / 2 + (if j < 5 % 2 then 1 else 0)) :=
  ⟨by decide, by decide, equal_split_exact 5 2 (by decide) (by decide)⟩

/-- Counterexample for C2 as stated: the `move_contracts` variant of
`add_expense` stores the single integer share `5 / 2 = 2` for **both**
participants of a 5-Octa expense — the remainder is never distributed — so
the computed shares are `[2, 2]`, which sum to 4, not 5. -/
theorem move_split_counterexample :
    (add_expense sampleGroup "M0" 5 ["M0", "M1"]).toOption.map
        (fun g => g.expenses.map
          (fun ex => ex.participants.map (fun _ => ex.perPersonAmount))) =
      some [[2, 2]] ∧
      ([2, 2] : List Nat).sum ≠ 5 := by
  constructor
  · rfl
  · decide

/-! ## Validation in the on-chain `add_expense` (C7) -/

/-- C7 (amended): the on-chain `add_expense` rejects a zero amount with
`E_INVALID_AMOUNT` (a `u64` amount cannot be negative), an empty or
non-member-containing split list with `E_INVALID_PARTICIPANTS`, and a
non-member payer with `E_NOT_GROUP_MEMBER`; an abort rolls the transaction
back so no state changes.  No group-state check is performed: the outcome
is independent of `settlement_status`, and on success exactly one expense
record is appended.  (The off-chain `addGroupExpense` performs none of
these validations.) -/
theorem add_expense_validation (g : GroupTreasury) (payer : String)
    (amount : Nat) (participants : List String) :
    (amount = 0 →
        add_expense g payer amount participants = .error .invalidAmount) ∧
      (amount ≠ 0 → participants = [] →
        add_expense g payer amount participants = .error .invalidParticipants) ∧
      (amount ≠ 0 → participants ≠ [] → payer ∉ g.members →
        add_expense g payer amount participants = .error .notGroupMember) ∧
      (amount ≠ 0 → participants ≠ [] → payer ∈ g.members →
        ¬ (∀ p ∈ participants, p ∈ g.members) →
        add_expense g payer amount participants = .error .invalidParticipants) ∧
      (∀ s : Nat,
        (add_expense { g with settlementStatus := s } payer amount participants).isOk =
          (add_expense g payer amount participants).isOk) ∧
      (∀ g', add_expense g payer amount participants = .ok g' →
        g'.expenses = g.expenses ++
          [⟨g.nextExpenseId, payer, amount, participants,
            amount / participants.length, false⟩]) := by
  refine ⟨?_, ?_, ?_, ?_, ?_, ?_⟩
  · intro h
    simp [add_expense, h]
  · intro h he
    simp [add_expense, h, he]
  · intro h he hm
    simp [add_expense, h, he, hm]
  · intro h he hm hall
    simp [add_expense, h, he, hm, hall]
  · intro s
    by_cases h1 : amount = 0
    · simp [add_expense, h1]
    by_cases h2 : participants = []
    · simp [add_expense, h1, h2]
    by_cases h3 : payer ∈ g.members
    · by_cases h4 : ∀ p ∈ participants, p ∈ g.members
      · have hno : ¬ ∃ x ∈ participants, x ∉ g.members :=
          fun ⟨x, hx, hnx⟩ => hnx (h4 x hx)
        simp [add_expense, h1, h2, h3, h4, hno, Except.isOk, Except.toBool]
      · have hyes : ∃ x ∈ participants, x ∉ g.members := by
          push_neg at h4
          exact h4
        simp [add_expense, h1, h2, h3, hyes, Except.isOk, Except.toBool]
    · simp [add_expense, h1, h2, h3]
  · intro g' hok
    by_cases h1 : amount = 0
    · simp [add_expense, h1] at hok
    by_cases h2 : participants = []
    · simp [add_expense, h1, h2] at hok
    by_cases h3 : payer ∈ g.members
    · by_cases h4 : ∀ p ∈ participants, p ∈ g.members
      · have hdef : add_expense g payer amount participants =
            .ok (recalculate_debt_balances
              { g with
                  expenses := g.expenses ++
                    [⟨g.nextExpenseId, payer, amount, participants,
                      amount / participants.length, false⟩]
                  nextExpenseId := g.nextExpenseId + 1
                  totalExpenses := g.totalExpenses + amount }) := by
          unfold add_expense
          rw [if_neg h1, if_neg (by simp [List.isEmpty_iff, h2]),
            if_neg (not_not_intro h3), if_neg (not_not_intro h4)]
        rw [hdef] at hok
        have hg' : g' = recalculate_debt_balances
            { g with
                expenses := g.expenses ++
                  [⟨g.nextExpenseId, payer, amount, participants,
                    amount / participants.length, false⟩]
                nextExpenseId := g.nextExpenseId + 1
                totalExpenses := g.totalExpenses + amount } :=
          (Except.ok.inj hok).symm
        rw [hg']
        cases hml : g.memberList with
        | nil => simp [recalculate_debt_balances, hml]
        | cons d rest =>
            cases rest with
            | nil => simp [recalculate_debt_balances, hml]
            | cons c rest' => simp [recalculate_debt_balances, hml]
      · simp [add_expense, h1, h2, h3, h4, List.isEmpty_iff] at hok
    · simp [add_expense, h1, h2, h3, List.isEmpty_iff] at hok

/-- Witness for C7's amended theorem: a zero amount and an empty split list
are both rejected on the two-member sample group. -/
theorem add_expense_validation_witness :
    add_expense sampleGroup "M0" 0 ["M0"] = .error .invalidAmount ∧
      add_expense sampleGroup "M0" 3 [] = .error .invalidParticipants :=
  ⟨(add_expense_validation sampleGroup "M0" 0 ["M0"]).1 rfl,
   (add_expense_validation sampleGroup "M0" 3 []).2.1 (by decide) rfl⟩

/-- Counterexample for C7 as stated: the off-chain `addGroupExpense`
performs no validation at all — a negative amount is accepted and an
expense record is appended; and the on-chain `add_expense` has no
group-state check — it succeeds on a group whose settlement status marks it
complete rather than failing with a GroupNotActive error. -/
theorem add_expense_no_validation_counterexample :
    addGroupExpense [] "A" (-5) ["A", "B"] =
        [⟨"A", -5, ["A", "B"], false⟩] ∧
      ¬ ((-5 : ℚ) > 0) ∧
      (add_expense { sampleGroup with settlementStatus := 2 }
          "M0" 7 ["M0", "M1"]).isOk = true := by
  refine ⟨rfl, by norm_num, ?_⟩
  rfl

/-! ## The placeholder debt recalculation (C10) -/

/-- C10: after every successful `add_expense`, the stored debt balances are
the fixed placeholder — a single edge `member_list[0] → member_list[1]` of
100000 Octas when the group has at least two members, nothing otherwise —
regardless of the expense's amount, payer, or participants. -/
theorem recalculated_debts_are_fixed (g : GroupTreasury) (payer : String)
    (amount : Nat) (participants : List String) (g' : GroupTreasury)
    (h : add_expense g payer amount participants = .ok g') :
    get_group_debt_balances g' =
      (match g.memberList with
        | d :: c :: _ => [⟨d, c, 100000⟩]
        | _ => []) := by
  by_cases h1 : amount = 0
  · simp [add_expense, h1] at h
  by_cases h2 : participants = []
  · simp [add_expense, h1, h2] at h
  by_cases h3 : payer ∈ g.members
  · by_cases h4 : ∀ p ∈ participants, p ∈ g.members
    · have hdef : add_expense g payer amount participants =
          .ok (recalculate_debt_balances
            { g with
                expenses := g.expenses ++
                  [⟨g.nextExpenseId, payer, amount, participants,
                    amount / participants.length, false⟩]
                nextExpenseId := g.nextExpenseId + 1
                totalExpenses := g.totalExpenses + amount }) := by
        unfold add_expense
        rw [if_neg h1, if_neg (by simp [List.isEmpty_iff, h2]),
          if_neg (not_not_intro h3), if_neg (not_not_intro h4)]
      rw [hdef] at h
      have hg' : g' = recalculate_debt_balances
          { g with
              expenses := g.expenses ++
                [⟨g.nextExpenseId, payer, amount, participants,
                  amount / participants.length, false⟩]
              nextExpenseId := g.nextExpenseId + 1
              totalExpenses := g.totalExpenses + amount } :=
        (Except.ok.inj h).symm
      rw [hg']
      cases hml : g.memberList with
      | nil => simp [recalculate_debt_balances, get_group_debt_balances, hml]
      | cons d rest =>
          cases rest with
          | nil => simp [recalculate_debt_balances, get_group_debt_balances, hml]
          | cons c rest' =>
              simp [recalculate_debt_balances, get_group_debt_balances, hml]
    · simp [add_expense, h1, h2, h3, h4, List.isEmpty_iff] at h
  · simp [add_expense, h1, h2, h3, List.isEmpty_iff] at h

/-- Witness for C10: adding a 7-Octa expense to the two-member sample group
leaves the fixed `M0 → M1, 100000` edge as the entire debt graph. -/
theorem recalculated_debts_are_fixed_witness :
    add_expense sampleGroup "M0" 7 ["M0", "M1"] = .ok sampleGroupAfter ∧
      get_group_debt_balances sampleGroupAfter = [⟨"M0", "M1", 100000⟩] :=
  ⟨by rfl,
   recalculated_debts_are_fixed sampleGroup "M0" 7 ["M0", "M1"]
     sampleGroupAfter (by rfl)⟩

end Wattspay

